import Mathlib

/-!
Verification of the raster-image operators implemented in src/src/ops.c of
the heman library.  Sample values (C type HEMAN_FLOAT) are modelled as
exact rationals; image buffers are flat lists in the row-major,
band-interleaved layout of the data model.
-/

/-- Raster image: dimensions, band count, and the flat row-major,
band-interleaved sample buffer; pixel (x, y) band b lives at offset
(y*width + x)*nbands + b. -/
structure heman_image where
  width : ℕ
  height : ℕ
  nbands : ℕ
  data : List ℚ
deriving DecidableEq

/-- Modelled from the spec: the Image Store collaborator (image.h is not in
src/) exposes per-pixel addressing heman_image_texel(img, x, y) into the
row-major band-interleaved buffer, so the sample of pixel (x, y) at band b
is the buffer entry at offset (y*width + x)*nbands + b.  Out-of-range reads
default to 0. -/
def texel (img : heman_image) (x y b : ℕ) : ℚ :=
  img.data.getD ((y * img.width + x) * img.nbands + b) 0

/-- Modelled from the spec: the CLAMP macro used by ops.c (defined in
image.h, not in src/), the standard clamp of v into [lo, hi]. -/
def CLAMP (v lo hi : ℚ) : ℚ := max lo (min v hi)

/-- Modelled from the spec: kazmath kmVec3Lerp, linear interpolation of
3-component vectors with factor t (t = 0 gives a, t = 1 gives b). -/
def kmVec3Lerp (a b : ℚ × ℚ × ℚ) (t : ℚ) : ℚ × ℚ × ℚ :=
  (a.1 + t * (b.1 - a.1), a.2.1 + t * (b.2.1 - a.2.1), a.2.2 + t * (b.2.2 - a.2.2))

/-- Default image used for out-of-range list lookups. -/
def dfltImage : heman_image := ⟨0, 0, 0, []⟩

/-- heman_ops_sweep from ops.c: asserts nbands == 1 (modelled as the none
branch), allocates heman_image_create(hmap->height, 1, 1) and writes, for
each input row y in order, the row sum scaled by invw = 1/width.  The
source pointer walks the buffer linearly, i.e. entry y*width + x. -/
def heman_ops_sweep (hmap : heman_image) : Option heman_image :=
  if hmap.nbands = 1 then
    some ⟨hmap.height, 1, 1,
      (List.range hmap.height).map fun y =>
        (((List.range hmap.width).map fun x =>
            hmap.data.getD (y * hmap.width + x) 0).sum) * (1 / (hmap.width : ℚ))⟩
  else none

/-- heman_ops_normalize_f32 from ops.c: no assertion at all; allocates an
image with the source dimensions and bands and maps every one of the
size = height*width*nbands buffer entries v to CLAMP((v - minv)*scale, 0, 1)
with scale = 1/(maxv - minv). -/
def heman_ops_normalize_f32 (source : heman_image) (minv maxv : ℚ) : heman_image :=
  ⟨source.width, source.height, source.nbands,
    (List.range (source.height * source.width * source.nbands)).map fun i =>
      CLAMP ((source.data.getD i 0 - minv) * (1 / (maxv - minv))) 0 1⟩

/-- Post-state buffer of the accumulate loop: entry i becomes
dstD[i] + srcD[i] for the first size entries and stays dstD[i] beyond. -/
def accumData (dstD srcD : List ℚ) (size : ℕ) : List ℚ :=
  (List.range dstD.length).map fun i =>
    if i < size then dstD.getD i 0 + srcD.getD i 0 else dstD.getD i 0

/-- heman_ops_accumulate from ops.c: asserts equal nbands, width and height
(modelled as the none branch), then adds the first size = height*width
buffer entries of src into dst in place; the mutated dst is returned as the
post-state.  Note the GENUINE omission of nbands from size in the source. -/
def heman_ops_accumulate (dst src : heman_image) : Option heman_image :=
  if dst.nbands = src.nbands ∧ dst.width = src.width ∧ dst.height = src.height then
    some { dst with data := accumData dst.data src.data (dst.height * dst.width) }
  else none

/-- heman_ops_laplacian from ops.c: asserts nbands == 1, allocates a
single-band image of the same dimensions, and for each pixel (x, y) writes
(p - px)^2 + (p - py)^2 where p, px, py sample the input at (x, y),
(min(x+1, width-1), y) and (x, min(y+1, height-1)) via heman_image_texel. -/
def heman_ops_laplacian (heightmap : heman_image) : Option heman_image :=
  if heightmap.nbands = 1 then
    let w := heightmap.width
    let h := heightmap.height
    some ⟨w, h, 1,
      (List.range (h * w)).map fun i =>
        let y := i / w
        let x := i % w
        let x1 := min (x + 1) (w - 1)
        let y1 := min (y + 1) (h - 1)
        let p := texel heightmap x y 0
        let px := texel heightmap x1 y 0
        let py := texel heightmap x y1 0
        (p - px) * (p - px) + (p - py) * (p - py)⟩
  else none

/-- copy_row and heman_ops_stitch_horizontal from ops.c: asserts count > 0
and that every image matches the first one in width, height and nbands
(modelled as the none branch); allocates width*count by height with nbands
bands, and for each row y and tile copies row y of images[tile] to columns
[tile*width, (tile+1)*width).  The buffer is expressed by decoding each
flat destination offset back to (band, column, row). -/
def heman_ops_stitch_horizontal (images : List heman_image) : Option heman_image :=
  match images with
  | [] => none
  | img0 :: rest =>
    if rest.all fun im =>
        im.width == img0.width && im.height == img0.height && im.nbands == img0.nbands then
      let width := img0.width
      let count := (img0 :: rest).length
      some ⟨width * count, img0.height, img0.nbands,
        (List.range (img0.height * (width * count) * img0.nbands)).map fun i =>
          let b := i % img0.nbands
          let X := (i / img0.nbands) % (width * count)
          let y := (i / img0.nbands) / (width * count)
          texel ((img0 :: rest).getD (X / width) dfltImage) (X % width) y b⟩
    else none

/-- The eight grayscale neighborhood samples read by heman_ops_sobel. -/
structure SobelTaps where
  t00 : ℚ
  t10 : ℚ
  t20 : ℚ
  t01 : ℚ
  t21 : ℚ
  t02 : ℚ
  t12 : ℚ
  t22 : ℚ
deriving DecidableEq

/-- Neighborhood sampling of heman_ops_sobel from ops.c: with
xm1 = MAX(x-1, 0), xp1 = MIN(x+1, width-1), ym1 = MAX(y-1, 0) and
yp1 = MIN(y+1, height-1), the taps t00, t10, t20 read row ym1, the taps
t01 and t21 read row 0 (as written in the source), and t02, t12, t22 read
row yp1; MAX(x-1, 0) over nonnegative ints coincides with truncated
subtraction on ℕ. -/
def sobelTaps (gray : heman_image) (width height x y : ℕ) : SobelTaps :=
  let xm1 := x - 1
  let xp1 := min (x + 1) (width - 1)
  let ym1 := y - 1
  let yp1 := min (y + 1) (height - 1)
  { t00 := texel gray xm1 ym1 0
    t10 := texel gray x ym1 0
    t20 := texel gray xp1 ym1 0
    t01 := texel gray xm1 0 0
    t21 := texel gray xp1 0 0
    t02 := texel gray xm1 yp1 0
    t12 := texel gray x yp1 0
    t22 := texel gray xp1 yp1 0 }

/-- Gradient pair (gx, gy) of heman_ops_sobel from ops.c, combining the
eight taps with the kernel weights of the source. -/
def sobelG (gray : heman_image) (width height x y : ℕ) : ℚ × ℚ :=
  let t := sobelTaps gray width height x y
  (t.t00 + 2 * t.t01 + t.t02 - t.t20 - 2 * t.t21 - t.t22,
   t.t00 + 2 * t.t10 + t.t20 - t.t02 - 2 * t.t12 - t.t22)

/-- Edge test of heman_ops_sobel from ops.c: gx*gx + gy*gy > 1e-5 (the C
double literal 1e-5, modelled as the exact rational 1/100000). -/
def sobelEdge (gray : heman_image) (width height x y : ℕ) : Bool :=
  decide ((sobelG gray width height x y).1 * (sobelG gray width height x y).1 +
    (sobelG gray width height x y).2 * (sobelG gray width height x y).2 > 1 / 100000)

/-- heman_ops_sobel from ops.c: asserts nbands == 3 (modelled as the none
branch), converts the input to a transient grayscale image through the
external heman_color_to_grayscale collaborator (passed as toGray), sets
edge_rgb to (0, 0, 0) — the edge_color argument is never read — and for
each pixel writes kmVec3Lerp(src pixel, edge_rgb, is_edge) where is_edge
is 1 when the edge test fires and 0 otherwise. -/
def heman_ops_sobel (toGray : heman_image → heman_image) (img : heman_image)
    (edge_color : ℚ × ℚ × ℚ) : Option heman_image :=
  if img.nbands = 3 then
    let gray := toGray img
    let w := img.width
    let h := img.height
    some ⟨w, h, 3,
      (List.range (h * w * 3)).map fun i =>
        let pix := i / 3
        let b := i % 3
        let x := pix % w
        let y := pix / w
        let srcPix := (img.data.getD (pix * 3) 0, img.data.getD (pix * 3 + 1) 0,
          img.data.getD (pix * 3 + 2) 0)
        let t : ℚ := if sobelEdge gray w h x y then 1 else 0
        let outPix := kmVec3Lerp srcPix (0, 0, 0) t
        if b = 0 then outPix.1 else if b = 1 then outPix.2.1 else outPix.2.2⟩
  else none

/-- Elementwise sum image of two images, following the wording of the
accumulate composition property: s has the shared dimensions and bands and
s[i] = a[i] + b[i] for every buffer entry. -/
def imageSum (a b : heman_image) : heman_image :=
  ⟨a.width, a.height, a.nbands,
    (List.range (a.width * a.height * a.nbands)).map fun i =>
      a.data.getD i 0 + b.data.getD i 0⟩

/-- Concrete instantiation of the external color-to-grayscale collaborator
used for witnesses: band 0 of each pixel of a 3-band image. -/
def grayBand0 (img : heman_image) : heman_image :=
  ⟨img.width, img.height, 1,
    (List.range (img.height * img.width)).map fun i => img.data.getD (i * 3) 0⟩

/-! ### Helper lemmas on flat buffer indexing -/

theorem getD_range_map (f : ℕ → ℚ) {n i : ℕ} (h : i < n) :
    ((List.range n).map f).getD i 0 = f i := by
  rw [List.getD_eq_getElem?_getD]
  simp [List.getElem?_map, List.getElem?_range h]

theorem pix_lt {x y w h : ℕ} (hx : x < w) (hy : y < h) : y * w + x < h * w := by
  calc y * w + x < y * w + w := by omega
  _ = (y + 1) * w := by ring
  _ ≤ h * w := Nat.mul_le_mul_right w (by omega)

theorem idx_lt {x y b w h nb : ℕ} (hx : x < w) (hy : y < h) (hb : b < nb) :
    (y * w + x) * nb + b < h * w * nb := by
  calc (y * w + x) * nb + b < (y * w + x) * nb + nb := by omega
  _ = (y * w + x + 1) * nb := by ring
  _ ≤ h * w * nb := Nat.mul_le_mul_right nb (by have := pix_lt hx hy; omega)

theorem encode_div {p b nb : ℕ} (hb : b < nb) : (p * nb + b) / nb = p := by
  have h0 : p * nb + b = b + nb * p := by ring
  rw [h0, Nat.add_mul_div_left _ _ (by omega : 0 < nb), Nat.div_eq_of_lt hb, Nat.zero_add]

theorem encode_mod {p b nb : ℕ} (hb : b < nb) : (p * nb + b) % nb = b := by
  rw [Nat.mul_comm, Nat.mul_add_mod, Nat.mod_eq_of_lt hb]

theorem rowcol_div {x y w : ℕ} (hx : x < w) : (y * w + x) / w = y := by
  have h0 : y * w + x = x + w * y := by ring
  rw [h0, Nat.add_mul_div_left _ _ (by omega : 0 < w), Nat.div_eq_of_lt hx, Nat.zero_add]

theorem rowcol_mod {x y w : ℕ} (hx : x < w) : (y * w + x) % w = x := by
  have h0 : y * w + x = x + w * y := by ring
  rw [h0, Nat.add_mul_mod_self_left, Nat.mod_eq_of_lt hx]

/-! ### Claim theorems -/

/-- C4: in the 8-neighborhood sampling of heman_ops_sobel, the samples t01
and t21 are always taken from row 0 at the clamped columns x-1 and x+1,
for every pixel and regardless of y, while the bottom-row samples t02, t12,
t22 use the clamped row min(y+1, height-1) and the top-row samples t00,
t10, t20 use the clamped row max(y-1, 0). -/
theorem sobel_tap_rows (gray : heman_image) (w h x y : ℕ) :
    (sobelTaps gray w h x y).t01 = texel gray (max (x - 1) 0) 0 0 ∧
    (sobelTaps gray w h x y).t21 = texel gray (min (x + 1) (w - 1)) 0 0 ∧
    (sobelTaps gray w h x y).t02 = texel gray (max (x - 1) 0) (min (y + 1) (h - 1)) 0 ∧
    (sobelTaps gray w h x y).t12 = texel gray x (min (y + 1) (h - 1)) 0 ∧
    (sobelTaps gray w h x y).t22 = texel gray (min (x + 1) (w - 1)) (min (y + 1) (h - 1)) 0 ∧
    (sobelTaps gray w h x y).t00 = texel gray (max (x - 1) 0) (max (y - 1) 0) 0 ∧
    (sobelTaps gray w h x y).t10 = texel gray x (max (y - 1) 0) 0 ∧
    (sobelTaps gray w h x y).t20 = texel gray (min (x + 1) (w - 1)) (max (y - 1) 0) 0 := by
  simp [sobelTaps, Nat.max_zero]

/-- C6: heman_ops_normalize_f32 enforces no band-count precondition, keeps
the dimensions and bands of the source, maps every sample v to
clamp((v - minv)/(maxv - minv), 0, 1), and every output sample lies in
[0, 1]. -/
theorem normalize_spec (source : heman_image) (minv maxv : ℚ) (hne : maxv ≠ minv)
    (x y b : ℕ) (hx : x < source.width) (hy : y < source.height) (hb : b < source.nbands) :
    (heman_ops_normalize_f32 source minv maxv).width = source.width ∧
    (heman_ops_normalize_f32 source minv maxv).height = source.height ∧
    (heman_ops_normalize_f32 source minv maxv).nbands = source.nbands ∧
    texel (heman_ops_normalize_f32 source minv maxv) x y b =
      CLAMP ((texel source x y b - minv) / (maxv - minv)) 0 1 ∧
    0 ≤ texel (heman_ops_normalize_f32 source minv maxv) x y b ∧
    texel (heman_ops_normalize_f32 source minv maxv) x y b ≤ 1 := by
  have hv : texel (heman_ops_normalize_f32 source minv maxv) x y b =
      CLAMP ((source.data.getD ((y * source.width + x) * source.nbands + b) 0 - minv)
        * (1 / (maxv - minv))) 0 1 := by
    show ((List.range (source.height * source.width * source.nbands)).map _).getD
      ((y * source.width + x) * source.nbands + b) 0 = _
    exact getD_range_map _ (idx_lt hx hy hb)
  refine ⟨rfl, rfl, rfl, ?_, ?_, ?_⟩
  · rw [hv, mul_one_div]
    rfl
  · rw [hv]
    exact le_max_left 0 _
  · rw [hv]
    exact max_le (by norm_num) (min_le_right _ _)

/-- Witness for normalize_spec at source = 1x1x1 image [2], minv = 0,
maxv = 1: the sample 2 normalizes to clamp(2, 0, 1) = 1. -/
theorem normalize_spec_witness :
    ((1 : ℚ) ≠ 0 ∧ 0 < 1 ∧ 0 < 1 ∧ 0 < 1) ∧
    ((heman_ops_normalize_f32 ⟨1, 1, 1, [2]⟩ 0 1).width = 1 ∧
     (heman_ops_normalize_f32 ⟨1, 1, 1, [2]⟩ 0 1).height = 1 ∧
     (heman_ops_normalize_f32 ⟨1, 1, 1, [2]⟩ 0 1).nbands = 1 ∧
     texel (heman_ops_normalize_f32 ⟨1, 1, 1, [2]⟩ 0 1) 0 0 0 =
       CLAMP ((texel ⟨1, 1, 1, [2]⟩ 0 0 0 - 0) / (1 - 0)) 0 1 ∧
     0 ≤ texel (heman_ops_normalize_f32 ⟨1, 1, 1, [2]⟩ 0 1) 0 0 0 ∧
     texel (heman_ops_normalize_f32 ⟨1, 1, 1, [2]⟩ 0 1) 0 0 0 ≤ 1) :=
  ⟨⟨by norm_num, by decide, by decide, by decide⟩,
   normalize_spec ⟨1, 1, 1, [2]⟩ 0 1 (by norm_num) 0 0 0 (by decide) (by decide) (by decide)⟩

/-- C5: heman_ops_laplacian maps a single-band image to a new single-band
image of the same dimensions in which each element (x, y) equals
(p - px)^2 + (p - py)^2 for the clamp-to-edge forward differences; on the
last column the x-term vanishes and on the last row the y-term vanishes. -/
theorem laplacian_spec (hm : heman_image) (h1 : hm.nbands = 1)
    (x y : ℕ) (hx : x < hm.width) (hy : y < hm.height)
    (r : heman_image) (hr : heman_ops_laplacian hm = some r) :
    r.width = hm.width ∧ r.height = hm.height ∧ r.nbands = 1 ∧
    texel r x y 0 =
      (texel hm x y 0 - texel hm (min (x + 1) (hm.width - 1)) y 0) ^ 2 +
      (texel hm x y 0 - texel hm x (min (y + 1) (hm.height - 1)) 0) ^ 2 ∧
    (x = hm.width - 1 →
      texel r x y 0 = (texel hm x y 0 - texel hm x (min (y + 1) (hm.height - 1)) 0) ^ 2) ∧
    (y = hm.height - 1 →
      texel r x y 0 = (texel hm x y 0 - texel hm (min (x + 1) (hm.width - 1)) y 0) ^ 2) := by
  unfold heman_ops_laplacian at hr
  rw [if_pos h1] at hr
  injection hr with hr
  subst hr
  have hv : texel
      (⟨hm.width, hm.height, 1,
        (List.range (hm.height * hm.width)).map fun i =>
          let y0 := i / hm.width
          let x0 := i % hm.width
          let x1 := min (x0 + 1) (hm.width - 1)
          let y1 := min (y0 + 1) (hm.height - 1)
          let p := texel hm x0 y0 0
          let px := texel hm x1 y0 0
          let py := texel hm x0 y1 0
          (p - px) * (p - px) + (p - py) * (p - py)⟩ : heman_image) x y 0 =
      (texel hm x y 0 - texel hm (min (x + 1) (hm.width - 1)) y 0) ^ 2 +
      (texel hm x y 0 - texel hm x (min (y + 1) (hm.height - 1)) 0) ^ 2 := by
    show (((List.range (hm.height * hm.width)).map _).getD ((y * hm.width + x) * 1 + 0) 0 : ℚ) = _
    rw [Nat.mul_one, Nat.add_zero, getD_range_map _ (pix_lt hx hy)]
    simp only [rowcol_div hx, rowcol_mod hx]
    ring
  refine ⟨rfl, rfl, rfl, hv, ?_, ?_⟩
  · intro hxw
    subst hxw
    rw [hv, min_eq_right (by omega : hm.width - 1 ≤ hm.width - 1 + 1)]
    ring
  · intro hyh
    subst hyh
    rw [hv, min_eq_right (by omega : hm.height - 1 ≤ hm.height - 1 + 1)]
    ring

/-- Witness for laplacian_spec at the 2x2 single-band image [0, 1, 2, 3]
and the last pixel (1, 1), whose forward differences both clamp to 0. -/
theorem laplacian_spec_witness :
    ((⟨2, 2, 1, [0, 1, 2, 3]⟩ : heman_image).nbands = 1 ∧ 1 < 2 ∧ 1 < 2 ∧
      heman_ops_laplacian ⟨2, 2, 1, [0, 1, 2, 3]⟩ = some ⟨2, 2, 1, [5, 4, 1, 0]⟩) ∧
    ((⟨2, 2, 1, [5, 4, 1, 0]⟩ : heman_image).width = 2 ∧
     (⟨2, 2, 1, [5, 4, 1, 0]⟩ : heman_image).height = 2 ∧
     (⟨2, 2, 1, [5, 4, 1, 0]⟩ : heman_image).nbands = 1 ∧
     texel ⟨2, 2, 1, [5, 4, 1, 0]⟩ 1 1 0 =
       (texel ⟨2, 2, 1, [0, 1, 2, 3]⟩ 1 1 0 -
         texel ⟨2, 2, 1, [0, 1, 2, 3]⟩ (min (1 + 1) (2 - 1)) 1 0) ^ 2 +
       (texel ⟨2, 2, 1, [0, 1, 2, 3]⟩ 1 1 0 -
         texel ⟨2, 2, 1, [0, 1, 2, 3]⟩ 1 (min (1 + 1) (2 - 1)) 0) ^ 2 ∧
     ((1 : ℕ) = 2 - 1 →
       texel ⟨2, 2, 1, [5, 4, 1, 0]⟩ 1 1 0 =
         (texel ⟨2, 2, 1, [0, 1, 2, 3]⟩ 1 1 0 -
           texel ⟨2, 2, 1, [0, 1, 2, 3]⟩ 1 (min (1 + 1) (2 - 1)) 0) ^ 2) ∧
     ((1 : ℕ) = 2 - 1 →
       texel ⟨2, 2, 1, [5, 4, 1, 0]⟩ 1 1 0 =
         (texel ⟨2, 2, 1, [0, 1, 2, 3]⟩ 1 1 0 -
           texel ⟨2, 2, 1, [0, 1, 2, 3]⟩ (min (1 + 1) (2 - 1)) 1 0) ^ 2)) :=
  ⟨⟨rfl, by decide, by decide, by with_unfolding_all rfl⟩,
   laplacian_spec ⟨2, 2, 1, [0, 1, 2, 3]⟩ rfl 1 1 (by decide) (by decide)
     ⟨2, 2, 1, [5, 4, 1, 0]⟩ (by with_unfolding_all rfl)⟩

/-- C2 counterexample: for the single-band 1x2 input [1, 3] the code calls
heman_image_create(hmap->height, 1, 1), so the result is 2x1 — the claimed
shape (width 1, height = input height 2) is false. -/
theorem sweep_claim_counterexample :
    heman_ops_sweep ⟨1, 2, 1, [1, 3]⟩ = some ⟨2, 1, 1, [1, 3]⟩ ∧
    (⟨2, 1, 1, [1, 3]⟩ : heman_image).width ≠ 1 ∧
    (⟨2, 1, 1, [1, 3]⟩ : heman_image).height ≠ 2 :=
  ⟨by with_unfolding_all rfl, by decide, by decide⟩

/-- C2 amended: heman_ops_sweep returns a single-band image of width
input.height and height 1, and the sample at column y of its single row
equals the arithmetic mean (sum divided by width) of the input samples of
row y. -/
theorem sweep_amended (hm : heman_image) (h1 : hm.nbands = 1)
    (r : heman_image) (hr : heman_ops_sweep hm = some r) :
    r.width = hm.height ∧ r.height = 1 ∧ r.nbands = 1 ∧
    ∀ y, y < hm.height →
      texel r y 0 0 =
        (((List.range hm.width).map fun x => texel hm x y 0).sum) / (hm.width : ℚ) := by
  unfold heman_ops_sweep at hr
  rw [if_pos h1] at hr
  injection hr with hr
  subst hr
  refine ⟨rfl, rfl, rfl, ?_⟩
  intro y hy
  have hv : texel (⟨hm.height, 1, 1, (List.range hm.height).map fun y0 =>
      (((List.range hm.width).map fun x => hm.data.getD (y0 * hm.width + x) 0).sum)
        * (1 / (hm.width : ℚ))⟩ : heman_image) y 0 0 =
      (((List.range hm.width).map fun x => hm.data.getD (y * hm.width + x) 0).sum)
        * (1 / (hm.width : ℚ)) := by
    show ((List.range hm.height).map _).getD ((0 * hm.height + y) * 1 + 0) 0 = _
    rw [Nat.zero_mul, Nat.zero_add, Nat.mul_one, Nat.add_zero]
    exact getD_range_map _ hy
  rw [hv, mul_one_div]
  congr 2
  apply List.map_congr_left
  intro x hx
  simp [texel, h1]

/-- Witness for sweep_amended at the 2x1 single-band input [1, 3]: the
result is the 1x1 image [2], the mean of the single row. -/
theorem sweep_amended_witness :
    ((⟨2, 1, 1, [1, 3]⟩ : heman_image).nbands = 1 ∧
      heman_ops_sweep ⟨2, 1, 1, [1, 3]⟩ = some ⟨1, 1, 1, [2]⟩) ∧
    ((⟨1, 1, 1, [2]⟩ : heman_image).width = 1 ∧
     (⟨1, 1, 1, [2]⟩ : heman_image).height = 1 ∧
     (⟨1, 1, 1, [2]⟩ : heman_image).nbands = 1 ∧
     ∀ y, y < 1 →
       texel ⟨1, 1, 1, [2]⟩ y 0 0 =
         (((List.range 2).map fun x => texel ⟨2, 1, 1, [1, 3]⟩ x y 0).sum)
           / (((2 : ℕ) : ℚ))) :=
  ⟨⟨rfl, by with_unfolding_all rfl⟩,
   sweep_amended ⟨2, 1, 1, [1, 3]⟩ rfl ⟨1, 1, 1, [2]⟩ (by with_unfolding_all rfl)⟩

/-- C3: evaluation at the failing input of the accumulate band bug.  For
the 1x1 two-band images dst = [0, 0] and src = [1, 1], the source loop
bound size = height*width = 1 omits nbands, so only the first of the two
samples is accumulated: the post-state is [1, 0], while the claim demands
dst[i] + src[i] = [1, 1]; the second conjunct exhibits the violated sample
(band 1 of pixel (0, 0)). -/
theorem accumulate_bug_eval :
    heman_ops_accumulate ⟨1, 1, 2, [0, 0]⟩ ⟨1, 1, 2, [1, 1]⟩ = some ⟨1, 1, 2, [1, 0]⟩ ∧
    texel ⟨1, 1, 2, [1, 0]⟩ 0 0 1 ≠
      texel ⟨1, 1, 2, [0, 0]⟩ 0 0 1 + texel ⟨1, 1, 2, [1, 1]⟩ 0 0 1 :=
  ⟨by with_unfolding_all rfl, by norm_num [texel]⟩

/-- C9: heman_ops_accumulate mutates only the sample buffer of its
destination: the post-state keeps the width, height and nbands of dst.
All inputs of all operators are passed by value in this embedding, so no
operator (including accumulate on its src argument and sobel on its input)
changes any input image. -/
theorem accumulate_frame (dst src d : heman_image)
    (hd : heman_ops_accumulate dst src = some d) :
    d.width = dst.width ∧ d.height = dst.height ∧ d.nbands = dst.nbands := by
  unfold heman_ops_accumulate at hd
  by_cases hc : dst.nbands = src.nbands ∧ dst.width = src.width ∧ dst.height = src.height
  · rw [if_pos hc] at hd
    injection hd with hd
    subst hd
    exact ⟨rfl, rfl, rfl⟩
  · rw [if_neg hc] at hd
    exact absurd hd (by simp)

/-- Witness for accumulate_frame at two 1x1 single-band images. -/
theorem accumulate_frame_witness :
    (heman_ops_accumulate ⟨1, 1, 1, [1]⟩ ⟨1, 1, 1, [2]⟩ = some ⟨1, 1, 1, [3]⟩) ∧
    ((⟨1, 1, 1, [3]⟩ : heman_image).width = 1 ∧
     (⟨1, 1, 1, [3]⟩ : heman_image).height = 1 ∧
     (⟨1, 1, 1, [3]⟩ : heman_image).nbands = 1) :=
  ⟨by with_unfolding_all rfl,
   accumulate_frame ⟨1, 1, 1, [1]⟩ ⟨1, 1, 1, [2]⟩ ⟨1, 1, 1, [3]⟩ (by with_unfolding_all rfl)⟩

theorem accumData_length (d s : List ℚ) (n : ℕ) : (accumData d s n).length = d.length := by
  simp [accumData]

theorem accumData_getD (d s : List ℚ) (n : ℕ) {i : ℕ} (h : i < d.length) :
    (accumData d s n).getD i 0 =
      if i < n then d.getD i 0 + s.getD i 0 else d.getD i 0 :=
  getD_range_map _ h

/-- Reduction of heman_ops_accumulate when the shape assertions hold. -/
theorem accumulate_eq_some (dst src : heman_image)
    (hc : dst.nbands = src.nbands ∧ dst.width = src.width ∧ dst.height = src.height) :
    heman_ops_accumulate dst src =
      some { dst with data := accumData dst.data src.data (dst.height * dst.width) } := by
  unfold heman_ops_accumulate
  rw [if_pos hc]

/-- C8: two sequential accumulates with sources a and then b leave dst in
the same state as a single accumulate with the elementwise sum image
a + b, for images of identical shape whose buffers have the nominal
length width*height*nbands. -/
theorem accumulate_assoc (dst a b : heman_image)
    (hwa : a.width = dst.width) (hha : a.height = dst.height) (hba : a.nbands = dst.nbands)
    (hwb : b.width = dst.width) (hhb : b.height = dst.height) (hbb : b.nbands = dst.nbands)
    (hla : a.data.length = a.width * a.height * a.nbands)
    (hlb : b.data.length = b.width * b.height * b.nbands) :
    (heman_ops_accumulate dst a).bind (fun d => heman_ops_accumulate d b) =
      heman_ops_accumulate dst (imageSum a b) := by
  have hdata : accumData (accumData dst.data a.data (dst.height * dst.width)) b.data
        (dst.height * dst.width) =
      accumData dst.data (imageSum a b).data (dst.height * dst.width) := by
    apply List.ext_getElem
    · simp [accumData_length]
    · intro i hi1 hi2
      have hlen : i < dst.data.length := by
        have h0 := hi1
        rwa [accumData_length, accumData_length] at h0
      rw [← List.getD_eq_getElem _ 0, ← List.getD_eq_getElem _ 0]
      rw [accumData_getD _ _ _ (by rwa [accumData_length]), accumData_getD _ _ _ hlen,
        accumData_getD _ _ _ hlen]
      by_cases hsz : i < dst.height * dst.width
      · rw [if_pos hsz, if_pos hsz, if_pos hsz]
        have hgetS : (imageSum a b).data.getD i 0 = a.data.getD i 0 + b.data.getD i 0 := by
          by_cases hin : i < a.width * a.height * a.nbands
          · exact getD_range_map _ hin
          · have hza : a.data.getD i 0 = 0 :=
              List.getD_eq_default _ _ (by omega)
            have hzb : b.data.getD i 0 = 0 :=
              List.getD_eq_default _ _ (by
                rw [hlb, hwb, hhb, hbb, ← hwa, ← hha, ← hba]
                omega)
            have hzs : (imageSum a b).data.getD i 0 = 0 :=
              List.getD_eq_default _ _ (by
                show ((List.range (a.width * a.height * a.nbands)).map _).length ≤ i
                rw [List.length_map, List.length_range]
                omega)
            rw [hza, hzb, hzs, add_zero]
        rw [hgetS]
        ring
      · rw [if_neg hsz, if_neg hsz, if_neg hsz]
  rw [accumulate_eq_some dst a ⟨hba.symm, hwa.symm, hha.symm⟩,
    accumulate_eq_some dst (imageSum a b) ⟨hba.symm, hwa.symm, hha.symm⟩,
    Option.some_bind,
    accumulate_eq_some { dst with data := accumData dst.data a.data (dst.height * dst.width) }
      b ⟨hbb.symm, hwb.symm, hhb.symm⟩]
  exact congrArg some (congrArg (heman_image.mk dst.width dst.height dst.nbands) hdata)

/-- Witness for accumulate_assoc at three 1x1 single-band images. -/
theorem accumulate_assoc_witness :
    ((⟨1, 1, 1, [2]⟩ : heman_image).width = 1 ∧ (⟨1, 1, 1, [2]⟩ : heman_image).height = 1 ∧
     (⟨1, 1, 1, [2]⟩ : heman_image).nbands = 1 ∧
     (⟨1, 1, 1, [3]⟩ : heman_image).width = 1 ∧ (⟨1, 1, 1, [3]⟩ : heman_image).height = 1 ∧
     (⟨1, 1, 1, [3]⟩ : heman_image).nbands = 1 ∧
     [(2 : ℚ)].length = 1 ∧ [(3 : ℚ)].length = 1) ∧
    (heman_ops_accumulate ⟨1, 1, 1, [1]⟩ ⟨1, 1, 1, [2]⟩).bind
        (fun d => heman_ops_accumulate d ⟨1, 1, 1, [3]⟩) =
      heman_ops_accumulate ⟨1, 1, 1, [1]⟩ (imageSum ⟨1, 1, 1, [2]⟩ ⟨1, 1, 1, [3]⟩) :=
  ⟨⟨rfl, rfl, rfl, rfl, rfl, rfl, rfl, rfl⟩,
   accumulate_assoc ⟨1, 1, 1, [1]⟩ ⟨1, 1, 1, [2]⟩ ⟨1, 1, 1, [3]⟩
     rfl rfl rfl rfl rfl rfl rfl rfl⟩

/-- C7: heman_ops_stitch_horizontal of count >= 1 images of identical
shape yields an image of dimensions width*count by height with the same
nbands in which column block i is a sample-for-sample copy of image i. -/
theorem stitch_horizontal_spec (img0 : heman_image) (rest : List heman_image)
    (hdims : ∀ im ∈ rest, im.width = img0.width ∧ im.height = img0.height ∧
      im.nbands = img0.nbands)
    (r : heman_image) (hr : heman_ops_stitch_horizontal (img0 :: rest) = some r) :
    r.width = img0.width * (img0 :: rest).length ∧ r.height = img0.height ∧
    r.nbands = img0.nbands ∧
    ∀ tile x y b, tile < (img0 :: rest).length → x < img0.width → y < img0.height →
      b < img0.nbands →
      texel r (tile * img0.width + x) y b =
        texel ((img0 :: rest).getD tile dfltImage) x y b := by
  have hall : (rest.all fun im => im.width == img0.width && im.height == img0.height &&
      im.nbands == img0.nbands) = true := by
    rw [List.all_eq_true]
    intro im him
    obtain ⟨h1, h2, h3⟩ := hdims im him
    simp [h1, h2, h3]
  simp only [heman_ops_stitch_horizontal, hall, if_true] at hr
  injection hr with hr
  subst hr
  refine ⟨rfl, rfl, rfl, ?_⟩
  intro tile x y b htile hx hy hb
  have hX : tile * img0.width + x < img0.width * (img0 :: rest).length := by
    calc tile * img0.width + x < tile * img0.width + img0.width := by omega
    _ = (tile + 1) * img0.width := by ring
    _ ≤ (img0 :: rest).length * img0.width := Nat.mul_le_mul_right _ (by omega)
    _ = img0.width * (img0 :: rest).length := Nat.mul_comm _ _
  have hidx : (y * (img0.width * (img0 :: rest).length) + (tile * img0.width + x))
      * img0.nbands + b <
      img0.height * (img0.width * (img0 :: rest).length) * img0.nbands := idx_lt hX hy hb
  simp only [texel]
  rw [getD_range_map _ hidx]
  simp only [encode_div hb, encode_mod hb, rowcol_div hX, rowcol_mod hX,
    rowcol_div hx, rowcol_mod hx]

/-- Witness for stitch_horizontal_spec at two 1x1 single-band images
[5] and [7], stitched to the 2x1 image [5, 7]. -/
theorem stitch_horizontal_witness :
    ((∀ im ∈ [(⟨1, 1, 1, [7]⟩ : heman_image)], im.width = 1 ∧ im.height = 1 ∧
        im.nbands = 1) ∧
      heman_ops_stitch_horizontal [⟨1, 1, 1, [5]⟩, ⟨1, 1, 1, [7]⟩] =
        some ⟨2, 1, 1, [5, 7]⟩) ∧
    ((⟨2, 1, 1, [5, 7]⟩ : heman_image).width = 1 * 2 ∧
     (⟨2, 1, 1, [5, 7]⟩ : heman_image).height = 1 ∧
     (⟨2, 1, 1, [5, 7]⟩ : heman_image).nbands = 1 ∧
     ∀ tile x y b, tile < 2 → x < 1 → y < 1 → b < 1 →
       texel ⟨2, 1, 1, [5, 7]⟩ (tile * 1 + x) y b =
         texel ([(⟨1, 1, 1, [5]⟩ : heman_image), ⟨1, 1, 1, [7]⟩].getD tile dfltImage) x y b) :=
  ⟨⟨by decide, by with_unfolding_all rfl⟩,
   stitch_horizontal_spec ⟨1, 1, 1, [5]⟩ [⟨1, 1, 1, [7]⟩] (by decide)
     ⟨2, 1, 1, [5, 7]⟩ (by with_unfolding_all rfl)⟩

/-- C10: heman_ops_sobel ignores its edge_color argument — any two edge
colors give identical outputs — and every pixel that passes the edge test
is written as the hardcoded edge_rgb = (0, 0, 0), i.e. every band of such
a pixel is 0. -/
theorem sobel_edge_color_independent (toGray : heman_image → heman_image)
    (img : heman_image) (c1 c2 : ℚ × ℚ × ℚ) :
    heman_ops_sobel toGray img c1 = heman_ops_sobel toGray img c2 ∧
    ∀ r, heman_ops_sobel toGray img c1 = some r →
      ∀ x y b, x < img.width → y < img.height → b < 3 →
        sobelEdge (toGray img) img.width img.height x y = true →
        texel r x y b = 0 := by
  refine ⟨rfl, ?_⟩
  intro r hr x y b hx hy hb hedge
  unfold heman_ops_sobel at hr
  by_cases h3 : img.nbands = 3
  · rw [if_pos h3] at hr
    injection hr with hr
    subst hr
    have hidx : (y * img.width + x) * 3 + b < img.height * img.width * 3 :=
      idx_lt hx hy hb
    simp only [texel]
    rw [getD_range_map _ hidx]
    simp only [encode_div hb, encode_mod hb, rowcol_div hx, rowcol_mod hx, hedge, if_true]
    unfold kmVec3Lerp
    interval_cases b <;> simp
  · rw [if_neg h3] at hr
    exact absurd hr (by simp)

/-- Witness for sobel_edge_color_independent with the band-0 grayscale
collaborator, the 2x1 color image with pixels (0,0,0) and (1,1,1), and the
two distinct edge colors (1,1,1) and (2,0,5): outputs coincide and the
edge pixel (1,0) has band value 0. -/
theorem sobel_independent_witness :
    (heman_ops_sobel grayBand0 ⟨2, 1, 3, [0, 0, 0, 1, 1, 1]⟩ (1, 1, 1) =
        some ⟨2, 1, 3, [0, 0, 0, 0, 0, 0]⟩ ∧
      1 < 2 ∧ 0 < 1 ∧ 0 < 3 ∧
      sobelEdge (grayBand0 ⟨2, 1, 3, [0, 0, 0, 1, 1, 1]⟩) 2 1 1 0 = true) ∧
    (heman_ops_sobel grayBand0 ⟨2, 1, 3, [0, 0, 0, 1, 1, 1]⟩ (1, 1, 1) =
       heman_ops_sobel grayBand0 ⟨2, 1, 3, [0, 0, 0, 1, 1, 1]⟩ (2, 0, 5) ∧
     texel ⟨2, 1, 3, [0, 0, 0, 0, 0, 0]⟩ 1 0 0 = 0) :=
  ⟨⟨by with_unfolding_all rfl, by decide, by decide, by decide, by with_unfolding_all rfl⟩,
   ⟨(sobel_edge_color_independent grayBand0 ⟨2, 1, 3, [0, 0, 0, 1, 1, 1]⟩
       (1, 1, 1) (2, 0, 5)).1,
    (sobel_edge_color_independent grayBand0 ⟨2, 1, 3, [0, 0, 0, 1, 1, 1]⟩
       (1, 1, 1) (2, 0, 5)).2
      ⟨2, 1, 3, [0, 0, 0, 0, 0, 0]⟩ (by with_unfolding_all rfl) 1 0 0 (by decide) (by decide)
      (by decide) (by with_unfolding_all rfl)⟩⟩

/-- C1: evaluation of heman_ops_sobel at a failing input of the claim that
edge pixels receive the supplied edge color.  With the band-0 grayscale
collaborator, the 2x1 image with pixels (0,0,0) and (1,1,1) and the edge
color (1,1,1), the pixel (1,0) passes the edge test (gradient magnitude
squared 16 > 1e-5) yet every band of its output is 0, not the supplied 1:
the code hardcodes edge_rgb = (0,0,0) and never reads edge_color. -/
theorem sobel_bug_eval :
    heman_ops_sobel grayBand0 ⟨2, 1, 3, [0, 0, 0, 1, 1, 1]⟩ (1, 1, 1) =
      some ⟨2, 1, 3, [0, 0, 0, 0, 0, 0]⟩ ∧
    sobelEdge (grayBand0 ⟨2, 1, 3, [0, 0, 0, 1, 1, 1]⟩) 2 1 1 0 = true ∧
    texel ⟨2, 1, 3, [0, 0, 0, 0, 0, 0]⟩ 1 0 0 ≠ 1 :=
  ⟨by with_unfolding_all rfl, by with_unfolding_all rfl, by norm_num [texel]⟩
